import Mathlib

/-!
Verification development for the novosparc reconstruction module
(`novotest/reconstruction/_novosparc.py`).

The numeric pipeline works on IEEE-754 double matrices whose only
non-finite values arise from `np.inf` entries of shortest-path matrices
and from divisions/means involving them.  We model the float values by
`FV`: either NaN, +inf, -inf, or an exact rational.  All arithmetic the
source performs (division, subtraction, sum, mean, max) is exact on the
inputs at hand, so the rational model is faithful; rounding plays no role
in the properties considered here.

External collaborators are modelled as inputs:
  * `sklearn.kneighbors_graph` + `nx.from_scipy_sparse_matrix` produce an
    undirected graph; we take the (symmetrized) adjacency as the input.
  * `scipy.cluster.hierarchy.ward`/`fcluster` produce a 1-based cluster
    assignment; we take the assignment list as the input and state its
    documented contract as hypotheses.
  * `scipy.stats.pearsonr` is modelled by a `Pearson` oracle structure
    carrying the mathematical facts used (coefficient in [-1,1] when
    finite; self-correlation 1 for non-constant finite rows), together
    with a concrete executable instance exact for 2-sample rows.
-/

/- Batteries marks the rational arithmetic operations `@[irreducible]`;
re-enable definitional unfolding locally so that concrete runs of the
embedded pipeline can be checked by `decide`. -/
attribute [local semireducible] Rat.add Rat.sub Rat.mul Rat.inv Rat.ofScientific

/-- Model of an IEEE-754 double as it occurs in this pipeline:
NaN, +infinity, -infinity, or an exact finite value (negative zero and
overflow never arise in the computations modelled here). -/
inductive FV where
  | nan : FV
  | inf : FV
  | ninf : FV
  | fin (q : ℚ) : FV
deriving DecidableEq

namespace FV

/-- IEEE addition on `FV` (used by `np.sum`/`np.mean`). -/
def add : FV → FV → FV
  | nan, _ => nan
  | _, nan => nan
  | inf, ninf => nan
  | ninf, inf => nan
  | inf, _ => inf
  | _, inf => inf
  | ninf, _ => ninf
  | _, ninf => ninf
  | fin a, fin b => fin (a + b)

/-- IEEE subtraction on `FV` (used by the mean-centering step). -/
def sub : FV → FV → FV
  | nan, _ => nan
  | _, nan => nan
  | inf, inf => nan
  | ninf, ninf => nan
  | inf, _ => inf
  | _, inf => ninf
  | ninf, _ => ninf
  | _, ninf => inf
  | fin a, fin b => fin (a - b)

/-- IEEE division on `FV` (used by the normalization step); `0/0` is NaN,
`x/0` is a signed infinity, `x/inf` is `0`. -/
def div : FV → FV → FV
  | nan, _ => nan
  | _, nan => nan
  | inf, inf => nan
  | inf, ninf => nan
  | ninf, inf => nan
  | ninf, ninf => nan
  | inf, fin b => if b < 0 then ninf else inf
  | ninf, fin b => if b < 0 then inf else ninf
  | fin _, inf => fin 0
  | fin _, ninf => fin 0
  | fin a, fin b =>
      if b = 0 then (if a = 0 then nan else if 0 < a then inf else ninf)
      else fin (a / b)

/-- IEEE strict less-than: any comparison with NaN is false. -/
def lt : FV → FV → Bool
  | nan, _ => false
  | _, nan => false
  | inf, _ => false
  | _, inf => true
  | ninf, ninf => false
  | ninf, _ => true
  | _, ninf => false
  | fin a, fin b => decide (a < b)

/-- IEEE non-strict less-than: any comparison with NaN is false. -/
def le : FV → FV → Bool
  | nan, _ => false
  | _, nan => false
  | ninf, _ => true
  | _, ninf => false
  | _, inf => true
  | inf, _ => false
  | fin a, fin b => decide (a ≤ b)

/-- Binary maximum as `np.maximum.reduce`/`ndarray.max` compute it:
NaN propagates; otherwise the larger of the two operands. -/
def max2 : FV → FV → FV
  | nan, _ => nan
  | _, nan => nan
  | a, b => if lt a b then b else a

end FV

/-- Fold computing `ndarray.sum` over a list of entries. -/
def fvSum (l : List FV) : FV := l.foldl FV.add (FV.fin 0)

/-- Fold computing `ndarray.max` over a list of entries (`-inf` is the
neutral initial accumulator; numpy raises on an empty array, a case that
never reaches this fold in the modelled pipeline). -/
def fvMax (l : List FV) : FV := l.foldl FV.max2 FV.ninf

theorem fv_add_nan_left (x : FV) : FV.add FV.nan x = FV.nan := by
  cases x <;> rfl

theorem fv_add_nan_right (x : FV) : FV.add x FV.nan = FV.nan := by
  cases x <;> rfl

theorem foldl_add_nan (l : List FV) : l.foldl FV.add FV.nan = FV.nan := by
  induction l with
  | nil => rfl
  | cons x xs ih => simpa [fv_add_nan_left] using ih

/-- If some entry is NaN, the whole numpy sum is NaN. -/
theorem fvSum_nan {l : List FV} (h : FV.nan ∈ l) : fvSum l = FV.nan := by
  rcases List.append_of_mem h with ⟨s, t, rfl⟩
  unfold fvSum
  rw [List.foldl_append, List.foldl_cons, fv_add_nan_right, foldl_add_nan]

theorem foldl_add_fin_map (l : List ℚ) (a : ℚ) :
    (l.map FV.fin).foldl FV.add (FV.fin a) = FV.fin (a + l.sum) := by
  induction l generalizing a with
  | nil => simp
  | cons q qs ih =>
      simp only [List.map_cons, List.foldl_cons]
      rw [show FV.add (FV.fin a) (FV.fin q) = FV.fin (a + q) from rfl, ih,
        List.sum_cons]
      congr 1
      ring

/-- numpy sum of an all-finite list of entries. -/
theorem fvSum_fin_map (l : List ℚ) : fvSum (l.map FV.fin) = FV.fin l.sum := by
  unfold fvSum
  rw [foldl_add_fin_map]
  ring_nf

theorem fv_max2_nan_left (x : FV) : FV.max2 FV.nan x = FV.nan := by
  cases x <;> rfl

theorem fv_max2_nan_right (x : FV) : FV.max2 x FV.nan = FV.nan := by
  cases x <;> rfl

/-- Case analysis used when the fold for `ndarray.max` produced a finite
value: the accumulator was `-inf` or a finite value below it. -/
theorem max2_eq_fin_acc {a x : FV} {q : ℚ} (h : FV.max2 a x = FV.fin q) :
    a = FV.ninf ∨ ∃ r, a = FV.fin r ∧ r ≤ q := by
  cases a with
  | nan => rw [fv_max2_nan_left] at h; cases h
  | inf =>
      exfalso
      cases x <;> simp [FV.max2, FV.lt] at h
  | ninf => exact Or.inl rfl
  | fin r =>
      refine Or.inr ⟨r, rfl, ?_⟩
      cases x with
      | nan => rw [fv_max2_nan_right] at h; cases h
      | inf => simp [FV.max2, FV.lt] at h
      | ninf =>
          simp [FV.max2, FV.lt] at h
          exact le_of_eq h
      | fin s =>
          by_cases hrs : r < s
          · simp [FV.max2, FV.lt, hrs] at h
            exact le_of_lt (h ▸ hrs)
          · simp [FV.max2, FV.lt, hrs] at h
            exact le_of_eq h

/-- The second operand of `max2` is bounded when the result is finite. -/
theorem max2_eq_fin_arg {a x : FV} {q : ℚ} (hx : x ≠ FV.ninf)
    (h : FV.max2 a x = FV.fin q) : ∃ r, x = FV.fin r ∧ r ≤ q := by
  cases x with
  | nan => rw [fv_max2_nan_right] at h; cases h
  | inf =>
      exfalso
      cases a <;> simp [FV.max2, FV.lt] at h
  | ninf => exact absurd rfl hx
  | fin s =>
      refine ⟨s, rfl, ?_⟩
      cases a with
      | nan => rw [fv_max2_nan_left] at h; cases h
      | inf => simp [FV.max2, FV.lt] at h
      | ninf =>
          simp [FV.max2, FV.lt] at h
          exact le_of_eq h
      | fin r =>
          by_cases hrs : r < s
          · simp [FV.max2, FV.lt, hrs] at h
            exact le_of_eq h
          · simp [FV.max2, FV.lt, hrs] at h
            rw [← h]
            exact le_of_not_lt hrs

/-- If the `ndarray.max` fold yields a finite value, the accumulator was
`-inf` or a finite value bounded by it. -/
theorem foldl_max_acc_fin :
    ∀ (l : List FV) (a : FV) (q : ℚ), l.foldl FV.max2 a = FV.fin q →
      a = FV.ninf ∨ ∃ r, a = FV.fin r ∧ r ≤ q := by
  intro l
  induction l with
  | nil =>
      intro a q h
      exact Or.inr ⟨q, h, le_refl q⟩
  | cons x xs ih =>
      intro a q h
      rcases ih (FV.max2 a x) q h with h1 | ⟨r, hr, hrq⟩
      · cases a with
        | nan => rw [fv_max2_nan_left] at h1; cases h1
        | inf => exfalso; cases x <;> simp [FV.max2, FV.lt] at h1
        | ninf => exact Or.inl rfl
        | fin s =>
            exfalso
            cases x with
            | nan => rw [fv_max2_nan_right] at h1; cases h1
            | inf => simp [FV.max2, FV.lt] at h1
            | ninf => simp [FV.max2, FV.lt] at h1
            | fin t => by_cases hst : s < t <;> simp [FV.max2, FV.lt, hst] at h1
      · rcases max2_eq_fin_acc hr with h2 | ⟨u, hu, huq⟩
        · exact Or.inl h2
        · exact Or.inr ⟨u, hu, le_trans huq hrq⟩

/-- `max2` yields `-inf` only when its second operand is `-inf`. -/
theorem max2_eq_ninf {a x : FV} (h : FV.max2 a x = FV.ninf) : x = FV.ninf := by
  cases a <;> cases x <;>
    first
      | rfl
      | (simp [FV.max2, FV.lt] at h; done)
      | (simp only [FV.max2, FV.lt] at h; split at h <;> simp_all)

/-- If the `ndarray.max` fold over entries none of which is `-inf`
yields a finite value `q`, then every entry is finite and bounded by `q`. -/
theorem foldl_max_entries_fin :
    ∀ (l : List FV) (a : FV) (q : ℚ), (∀ x ∈ l, x ≠ FV.ninf) →
      l.foldl FV.max2 a = FV.fin q →
      ∀ x ∈ l, ∃ r, x = FV.fin r ∧ r ≤ q := by
  intro l
  induction l with
  | nil => intro a q _ _ x hx; cases hx
  | cons y ys ih =>
      intro a q hninf h x hx
      rcases List.mem_cons.mp hx with rfl | hxs
      · rcases foldl_max_acc_fin ys (FV.max2 a x) q h with h1 | ⟨r, hr, hrq⟩
        · exact absurd (max2_eq_ninf h1) (hninf x (List.mem_cons_self _ _))
        · rcases max2_eq_fin_arg (hninf x (List.mem_cons_self _ _)) hr with ⟨s, hs, hsr⟩
          exact ⟨s, hs, le_trans hsr hrq⟩
      · exact ih (FV.max2 a y) q (fun z hz => hninf z (List.mem_cons_of_mem _ hz)) h x hxs

/-- Every entry of an all-finite, non-`-inf` list is bounded by the
finite value of the `ndarray.max` fold (specialised to `fvMax`). -/
theorem fvMax_fin_entries {l : List FV} {q : ℚ} (hninf : ∀ x ∈ l, x ≠ FV.ninf)
    (h : fvMax l = FV.fin q) : ∀ x ∈ l, ∃ r, x = FV.fin r ∧ r ≤ q :=
  foldl_max_entries_fin l FV.ninf q hninf h

/-! ## Matrices of float values

`setup_for_OT_reconstruction` (lines 24-47 of `_novosparc.py`) manipulates
dense square float matrices; we represent an `n × n` matrix as a function
`Fin n → Fin n → FV` and enumerate its entries row-major, the order numpy
reductions traverse. -/

/-- Row-major list of the entries of a square `FV` matrix. -/
def matList {n : ℕ} (M : Fin n → Fin n → FV) : List FV :=
  (List.finRange n).flatMap (fun i => (List.finRange n).map (fun j => M i j))

/-- Row-major list of the entries of a square rational matrix. -/
def matListQ {n : ℕ} (g : Fin n → Fin n → ℚ) : List ℚ :=
  (List.finRange n).flatMap (fun i => (List.finRange n).map (fun j => g i j))

/-- `ndarray.max()` of a square matrix. -/
def matMax {n : ℕ} (M : Fin n → Fin n → FV) : FV := fvMax (matList M)

/-- `ndarray.sum()` of a square matrix. -/
def matSum {n : ℕ} (M : Fin n → Fin n → FV) : FV := fvSum (matList M)

/-- `np.mean` of a square matrix: its sum divided by its size. -/
def matMean {n : ℕ} (M : Fin n → Fin n → FV) : FV :=
  FV.div (matSum M) (FV.fin ((n * n : ℕ) : ℚ))

/-- `M / M.max()`, the normalization step of the cost-matrix pipeline. -/
def normalizeMat {n : ℕ} (M : Fin n → Fin n → FV) : Fin n → Fin n → FV :=
  fun i j => FV.div (M i j) (matMax M)

/-- `M -= np.mean(M)`, the mean-centering step of the cost-matrix
pipeline. -/
def centerMat {n : ℕ} (M : Fin n → Fin n → FV) : Fin n → Fin n → FV :=
  fun i j => FV.sub (M i j) (matMean M)

/-! ## Shortest paths

`kneighbors_graph(..., mode='connectivity', include_self=True)` followed by
`nx.from_scipy_sparse_matrix` yields an undirected unweighted graph on the
matrix rows; the graph is the symmetrization of the k-NN adjacency.  We
take the adjacency predicate as the input of the modelled pipeline (the
neighbor search itself is an external sklearn collaborator).
`nx.floyd_warshall_numpy` then returns hop-count distances with `np.inf`
for unreachable pairs and `0` on the diagonal; we compute them with the
same algorithm over `WithTop ℕ` (`⊤` = `np.inf`). -/

/-- Initial Floyd-Warshall distance matrix: `0` on the diagonal, `1` for
an edge of the (symmetrized, unweighted) graph, `⊤` otherwise. -/
def fwInit {n : ℕ} (adj : Fin n → Fin n → Bool) :
    Fin n → Fin n → WithTop ℕ :=
  fun i j => if i = j then 0 else if adj i j || adj j i then 1 else ⊤

/-- One Floyd-Warshall relaxation round through intermediate vertex `k`. -/
def fwUpd {n : ℕ} (d : Fin n → Fin n → WithTop ℕ) (k : Fin n) :
    Fin n → Fin n → WithTop ℕ :=
  fun i j => min (d i j) (d i k + d k j)

/-- All-pairs shortest path matrix (`nx.floyd_warshall_numpy`). -/
def floydWarshall {n : ℕ} (adj : Fin n → Fin n → Bool) :
    Fin n → Fin n → WithTop ℕ :=
  (List.finRange n).foldl fwUpd (fwInit adj)

/-- Embed a shortest-path matrix into float values:
`⊤` becomes `np.inf`, a hop count becomes the finite float of that value. -/
def toFVmat {n : ℕ} (M : Fin n → Fin n → WithTop ℕ) : Fin n → Fin n → FV :=
  fun i j => if M i j = ⊤ then FV.inf else FV.fin (((M i j).untop' 0 : ℕ) : ℚ)

/-! ## The cost-matrix pipeline (`setup_for_OT_reconstruction`) -/

/-- Shortest-path matrix of the location-space graph
(`sp_locations = nx.floyd_warshall_numpy(G_locations)`). -/
def sp_locations {m : ℕ} (adjL : Fin m → Fin m → Bool) :
    Fin m → Fin m → WithTop ℕ :=
  floydWarshall adjL

/-- Shortest-path matrix of the expression-space graph
(`sp_expression = nx.floyd_warshall_numpy(G_expression)`). -/
def sp_expression {n : ℕ} (adjE : Fin n → Fin n → Bool) :
    Fin n → Fin n → WithTop ℕ :=
  floydWarshall adjE

/-- `sp_expression_max = np.nanmax(sp_expression[sp_expression != np.inf])`:
the largest finite entry of the expression shortest-path matrix. -/
def sp_expression_max {n : ℕ} (adjE : Fin n → Fin n → Bool) : ℕ :=
  Finset.sup
    (Finset.univ.filter
      (fun p : Fin n × Fin n => sp_expression adjE p.1 p.2 ≠ ⊤))
    (fun p => (sp_expression adjE p.1 p.2).untop' 0)

/-- `sp_expression[sp_expression > sp_expression_max] = sp_expression_max`:
entries above the largest finite entry (i.e. the `np.inf` ones) are
clipped to it.  No such assignment is performed on `sp_locations`. -/
def sp_expression_clipped {n : ℕ} (adjE : Fin n → Fin n → Bool) :
    Fin n → Fin n → WithTop ℕ :=
  fun i j =>
    if (sp_expression_max adjE : WithTop ℕ) < sp_expression adjE i j
    then (sp_expression_max adjE : WithTop ℕ)
    else sp_expression adjE i j

/-- `cost_locations = sp_locations / sp_locations.max();
cost_locations -= np.mean(cost_locations)` (lines 41-42). -/
def cost_locations {m : ℕ} (adjL : Fin m → Fin m → Bool) :
    Fin m → Fin m → FV :=
  centerMat (normalizeMat (toFVmat (sp_locations adjL)))

/-- `cost_expression = sp_expression / sp_expression.max();
cost_expression -= np.mean(cost_expression)` (lines 43-44), applied to the
clipped expression shortest-path matrix. -/
def cost_expression {n : ℕ} (adjE : Fin n → Fin n → Bool) :
    Fin n → Fin n → FV :=
  centerMat (normalizeMat (toFVmat (sp_expression_clipped adjE)))

/-- `setup_for_OT_reconstruction` (lines 24-47): from the two k-NN
adjacency structures (the outputs of the external `kneighbors_graph`
collaborator on `dge` resp. `locations`), return
`(cost_expression, cost_locations)`.  The Python function is
straight-line code with no validation and no exceptional exit; its only
other effects are progress prints. -/
def setup_for_OT_reconstruction {n m : ℕ} (adjE : Fin n → Fin n → Bool)
    (adjL : Fin m → Fin m → Bool) :
    (Fin n → Fin n → FV) × (Fin m → Fin m → FV) :=
  (cost_expression adjE, cost_locations adjL)

/-! ## Structural lemmas for the shortest-path stage -/

theorem foldl_invariant {α β : Type} (P : α → Prop) (f : α → β → α)
    (l : List β) (a : α) (ha : P a) (hf : ∀ x b, P x → P (f x b)) :
    P (l.foldl f a) := by
  induction l generalizing a with
  | nil => exact ha
  | cons b bs ih => exact ih (f a b) (hf a b ha)

/-- The Floyd-Warshall matrix of the (symmetrized) graph is symmetric. -/
theorem floydWarshall_symm {n : ℕ} (adj : Fin n → Fin n → Bool)
    (i j : Fin n) : floydWarshall adj i j = floydWarshall adj j i := by
  have h := foldl_invariant
    (fun d : Fin n → Fin n → WithTop ℕ => ∀ i j, d i j = d j i)
    fwUpd (List.finRange n) (fwInit adj) ?_ ?_
  · exact h i j
  · intro i j
    unfold fwInit
    by_cases hij : i = j
    · subst hij; simp
    · have hji : ¬ j = i := fun h' => hij h'.symm
      simp only [hij, hji, if_false]
      rw [Bool.or_comm]
  · intro d k hd i j
    unfold fwUpd
    rw [hd i j, hd i k, hd k j, add_comm]

/-- The Floyd-Warshall matrix has zero diagonal (self-distance 0). -/
theorem floydWarshall_diag {n : ℕ} (adj : Fin n → Fin n → Bool)
    (i : Fin n) : floydWarshall adj i i = 0 := by
  have h := foldl_invariant
    (fun d : Fin n → Fin n → WithTop ℕ => ∀ i, d i i = 0)
    fwUpd (List.finRange n) (fwInit adj) ?_ ?_
  · exact h i
  · intro i
    simp [fwInit]
  · intro d k hd i
    unfold fwUpd
    rw [hd i]
    exact min_eq_left (zero_le _)

/-- Clipping preserves symmetry. -/
theorem sp_expression_clipped_symm {n : ℕ} (adjE : Fin n → Fin n → Bool)
    (i j : Fin n) :
    sp_expression_clipped adjE i j = sp_expression_clipped adjE j i := by
  unfold sp_expression_clipped sp_expression
  rw [floydWarshall_symm adjE i j]

/-- Clipping preserves the zero diagonal. -/
theorem sp_expression_clipped_diag {n : ℕ} (adjE : Fin n → Fin n → Bool)
    (i : Fin n) : sp_expression_clipped adjE i i = 0 := by
  unfold sp_expression_clipped sp_expression
  rw [floydWarshall_diag adjE i]
  have : ¬ ((sp_expression_max adjE : WithTop ℕ) < 0) :=
    not_lt.mpr (zero_le _)
  simp [this]

/-- The location cost matrix is symmetric. -/
theorem cost_locations_symm {m : ℕ} (adjL : Fin m → Fin m → Bool)
    (i j : Fin m) : cost_locations adjL i j = cost_locations adjL j i := by
  unfold cost_locations centerMat normalizeMat toFVmat sp_locations
  rw [floydWarshall_symm adjL i j]

/-- The expression cost matrix is symmetric. -/
theorem cost_expression_symm {n : ℕ} (adjE : Fin n → Fin n → Bool)
    (i j : Fin n) : cost_expression adjE i j = cost_expression adjE j i := by
  unfold cost_expression centerMat normalizeMat toFVmat
  rw [sp_expression_clipped_symm adjE i j]

/-! ## Entry lists, sums and means of all-finite matrices -/

theorem flatMap_congr {α β : Type} (l : List α) (f g : α → List β)
    (h : ∀ a ∈ l, f a = g a) : l.flatMap f = l.flatMap g := by
  induction l with
  | nil => rfl
  | cons x xs ih =>
      simp only [List.flatMap_cons]
      rw [h x (List.mem_cons_self _ _),
        ih (fun a ha => h a (List.mem_cons_of_mem _ ha))]

theorem matList_mem {n : ℕ} (M : Fin n → Fin n → FV) (x : FV) :
    x ∈ matList M ↔ ∃ i j, M i j = x := by
  unfold matList
  constructor
  · intro hx
    rcases List.mem_flatMap.mp hx with ⟨i, _, hx2⟩
    rcases List.mem_map.mp hx2 with ⟨j, _, rfl⟩
    exact ⟨i, j, rfl⟩
  · rintro ⟨i, j, rfl⟩
    exact List.mem_flatMap.mpr
      ⟨i, List.mem_finRange i,
        List.mem_map.mpr ⟨j, List.mem_finRange j, rfl⟩⟩

theorem matList_eq_map {n : ℕ} (M : Fin n → Fin n → FV)
    (g : Fin n → Fin n → ℚ) (h : ∀ i j, M i j = FV.fin (g i j)) :
    matList M = (matListQ g).map FV.fin := by
  unfold matList matListQ
  rw [List.map_flatMap]
  refine flatMap_congr _ _ _ (fun i _ => ?_)
  rw [List.map_map]
  exact List.map_congr_left (fun j _ => h i j)

theorem matListQ_comp {n : ℕ} (g : Fin n → Fin n → ℚ) (φ : ℚ → ℚ) :
    matListQ (fun i j => φ (g i j)) = (matListQ g).map φ := by
  unfold matListQ
  rw [List.map_flatMap]
  refine flatMap_congr _ _ _ (fun i _ => ?_)
  rw [List.map_map]
  rfl

theorem matListQ_length {n : ℕ} (g : Fin n → Fin n → ℚ) :
    (matListQ g).length = n * n := by
  unfold matListQ
  simp only [List.length_flatMap, Function.comp_def, List.length_map,
    List.length_finRange]
  rw [List.map_const', List.sum_replicate, List.length_finRange, smul_eq_mul]

theorem matList_nil {M : Fin 0 → Fin 0 → FV} : matList M = [] := rfl

/-- A finite `ndarray.max()` forces the matrix to be non-empty. -/
theorem matMax_fin_pos {n : ℕ} {M : Fin n → Fin n → FV} {mx : ℚ}
    (h : matMax M = FV.fin mx) : 0 < n := by
  rcases Nat.eq_zero_or_pos n with rfl | hn
  · rw [matMax, matList_nil] at h
    cases h
  · exact hn

/-- Entries of the float image of a shortest-path matrix are `np.inf`
or nonnegative finite values, never `-inf`. -/
theorem toFVmat_ne_ninf {n : ℕ} (M : Fin n → Fin n → WithTop ℕ)
    (i j : Fin n) : toFVmat M i j ≠ FV.ninf := by
  unfold toFVmat
  split <;> simp

/-- Finite entries of the float image of a shortest-path matrix are
nonnegative (they are hop counts). -/
theorem toFVmat_fin_nonneg {n : ℕ} (M : Fin n → Fin n → WithTop ℕ)
    (i j : Fin n) {q : ℚ} (h : toFVmat M i j = FV.fin q) : 0 ≤ q := by
  unfold toFVmat at h
  split at h
  · cases h
  · cases h
    exact Nat.cast_nonneg _

/-- If `ndarray.max()` of a matrix without `-inf` entries is the finite
value `mx`, every entry is finite and bounded by `mx`. -/
theorem matMax_fin_entries {n : ℕ} {M : Fin n → Fin n → FV} {mx : ℚ}
    (hninf : ∀ i j, M i j ≠ FV.ninf) (h : matMax M = FV.fin mx) :
    ∀ i j, ∃ q, M i j = FV.fin q ∧ q ≤ mx := by
  intro i j
  have hmem : M i j ∈ matList M := (matList_mem M (M i j)).mpr ⟨i, j, rfl⟩
  have hni : ∀ x ∈ matList M, x ≠ FV.ninf := by
    intro x hx
    rcases (matList_mem M x).mp hx with ⟨i', j', rfl⟩
    exact hninf i' j'
  rcases fvMax_fin_entries hni h (M i j) hmem with ⟨r, hr, hrq⟩
  exact ⟨r, hr, hrq⟩

theorem matSum_fin {n : ℕ} (M : Fin n → Fin n → FV) (g : Fin n → Fin n → ℚ)
    (h : ∀ i j, M i j = FV.fin (g i j)) :
    matSum M = FV.fin (matListQ g).sum := by
  unfold matSum
  rw [matList_eq_map M g h, fvSum_fin_map]

theorem fv_div_fin_fin {a b : ℚ} (hb : b ≠ 0) :
    FV.div (FV.fin a) (FV.fin b) = FV.fin (a / b) := by
  simp [FV.div, hb]

theorem fv_sub_fin_fin (a b : ℚ) :
    FV.sub (FV.fin a) (FV.fin b) = FV.fin (a - b) := rfl

theorem matMean_fin {n : ℕ} (M : Fin n → Fin n → FV)
    (g : Fin n → Fin n → ℚ) (h : ∀ i j, M i j = FV.fin (g i j))
    (hn : 0 < n) :
    matMean M = FV.fin ((matListQ g).sum / (n * n : ℕ)) := by
  unfold matMean
  rw [matSum_fin M g h,
    fv_div_fin_fin (by exact_mod_cast (Nat.mul_pos hn hn).ne')]

theorem list_sum_map_sub (l : List ℚ) (c : ℚ) :
    (l.map (fun x => x - c)).sum = l.sum - l.length * c := by
  induction l with
  | nil => simp
  | cons x xs ih =>
      simp only [List.map_cons, List.sum_cons, List.length_cons, ih]
      push_cast
      ring

/-! ## Normalization and centering: the finite and the degenerate case -/

/-- When the matrix (no `-inf` entries) has finite positive maximum `mx`,
normalizing by the maximum and subtracting the mean yields an entrywise
finite matrix whose mean is exactly zero. -/
theorem center_normalize_spec {n : ℕ} (M : Fin n → Fin n → FV) (mx : ℚ)
    (hninf : ∀ i j, M i j ≠ FV.ninf) (hmx : matMax M = FV.fin mx)
    (hpos : 0 < mx) :
    (∀ i j, ∃ q, centerMat (normalizeMat M) i j = FV.fin q) ∧
      matMean (centerMat (normalizeMat M)) = FV.fin 0 := by
  have hn : 0 < n := matMax_fin_pos hmx
  have hent := matMax_fin_entries hninf hmx
  choose g hg hgle using hent
  have hmxne : mx ≠ 0 := ne_of_gt hpos
  have hN : ∀ i j, normalizeMat M i j = FV.fin (g i j / mx) := by
    intro i j
    show FV.div (M i j) (matMax M) = _
    rw [hg i j, hmx, fv_div_fin_fin hmxne]
  have hμ : matMean (normalizeMat M)
      = FV.fin ((matListQ (fun i j => g i j / mx)).sum / ((n * n : ℕ) : ℚ)) :=
    matMean_fin _ _ hN hn
  set μ := (matListQ (fun i j => g i j / mx)).sum / ((n * n : ℕ) : ℚ) with hμdef
  have hC : ∀ i j, centerMat (normalizeMat M) i j = FV.fin (g i j / mx - μ) := by
    intro i j
    show FV.sub (normalizeMat M i j) (matMean (normalizeMat M)) = _
    rw [hN i j, hμ, fv_sub_fin_fin]
  refine ⟨fun i j => ⟨_, hC i j⟩, ?_⟩
  rw [matMean_fin _ _ hC hn]
  have hnn : ((n * n : ℕ) : ℚ) ≠ 0 := by
    exact_mod_cast (Nat.mul_pos hn hn).ne'
  have hsum : (matListQ (fun i j => g i j / mx - μ)).sum
      = (matListQ (fun i j => g i j / mx)).sum - ((n * n : ℕ) : ℚ) * μ := by
    rw [matListQ_comp (fun i j => g i j / mx) (fun x => x - μ),
      list_sum_map_sub, matListQ_length]
  rw [hsum]
  have hcancel : ((n * n : ℕ) : ℚ) * μ
      = (matListQ (fun i j => g i j / mx)).sum := by
    rw [hμdef]
    field_simp
  rw [hcancel, sub_self, zero_div]

/-- When every entry of the matrix is the finite value `0` is forced by a
zero maximum (degenerate input): normalization is `0/0`, so every entry of
the centered normalized matrix is NaN. -/
theorem center_normalize_all_nan {n : ℕ} (M : Fin n → Fin n → FV)
    (hninf : ∀ i j, M i j ≠ FV.ninf)
    (hnonneg : ∀ i j q, M i j = FV.fin q → 0 ≤ q)
    (hmx : matMax M = FV.fin 0) :
    ∀ i j, centerMat (normalizeMat M) i j = FV.nan := by
  have hn : 0 < n := matMax_fin_pos hmx
  have hzero : ∀ i j, M i j = FV.fin 0 := by
    intro i j
    rcases matMax_fin_entries hninf hmx i j with ⟨q, hq, hle⟩
    have h0 : q = 0 := le_antisymm hle (hnonneg i j q hq)
    rwa [h0] at hq
  have hN : ∀ i j, normalizeMat M i j = FV.nan := by
    intro i j
    show FV.div (M i j) (matMax M) = _
    rw [hzero i j, hmx]
    simp [FV.div]
  have hmean : matMean (normalizeMat M) = FV.nan := by
    unfold matMean matSum
    have hmem : FV.nan ∈ matList (normalizeMat M) :=
      (matList_mem _ _).mpr ⟨⟨0, hn⟩, ⟨0, hn⟩, hN _ _⟩
    rw [fvSum_nan hmem]
    rfl
  intro i j
  show FV.sub (normalizeMat M i j) (matMean (normalizeMat M)) = _
  rw [hN i j, hmean]
  rfl

/-! ## Concrete adjacency structures used as inputs

These are realizable outputs of the external `kneighbors_graph`
collaborator under the spec's own validity conditions:
  * `adjSelf n`: with `n_neighbors = 1` and `include_self=True`, every
    row's single nearest neighbor is itself, so the graph has only
    self-loops (any data, any `n ≥ 2 ≥ k+1`).
  * `adjFull n`: with `n_neighbors = n` every node neighbors every other.
  * `adjBlock3`: two clusters far apart (rows 0,1 near each other, row 2
    far away) with `n_neighbors = 2`: two connected components. -/

def adjSelf (n : ℕ) : Fin n → Fin n → Bool := fun i j => decide (i = j)

def adjFull (n : ℕ) : Fin n → Fin n → Bool := fun _ _ => true

def adjBlock3 : Fin 3 → Fin 3 → Bool :=
  fun i j => decide ((i.val < 2 ∧ j.val < 2) ∨ (i.val = 2 ∧ j.val = 2))

/-! ## Claims about `setup_for_OT_reconstruction` -/

/-- C2: every infinite (unreachable-pair) entry of the expression-space
shortest-path matrix is replaced by the maximum finite entry before
normalization, finite entries stay unchanged; the location-space matrix
receives no such clipping: on the two-component graph `adjBlock3` the
unreachable location pair (0,2) keeps `np.inf`, which normalization turns
into NaN, while the same pair in expression space becomes the finite cost
`1/3`. -/
theorem claim_C2_expression_clipping {n : ℕ} (adjE : Fin n → Fin n → Bool)
    (i j : Fin n) :
    (sp_expression adjE i j = ⊤ →
      sp_expression_clipped adjE i j = (sp_expression_max adjE : WithTop ℕ)) ∧
    (sp_expression adjE i j ≠ ⊤ →
      sp_expression_clipped adjE i j = sp_expression adjE i j) ∧
    sp_locations adjBlock3 0 2 = ⊤ ∧
    cost_locations adjBlock3 0 2 = FV.nan ∧
    cost_expression adjBlock3 0 2 = FV.fin (1/3) := by
  refine ⟨?_, ?_, by decide, by decide, by decide⟩
  · intro h
    unfold sp_expression_clipped
    rw [h]
    simp [WithTop.coe_lt_top]
  · intro h
    rcases WithTop.ne_top_iff_exists.mp h with ⟨a, ha⟩
    have hmem : (i, j) ∈ Finset.univ.filter
        (fun p : Fin n × Fin n => sp_expression adjE p.1 p.2 ≠ ⊤) :=
      Finset.mem_filter.mpr ⟨Finset.mem_univ _, h⟩
    have hle : (sp_expression adjE i j).untop' 0 ≤ sp_expression_max adjE := by
      unfold sp_expression_max
      exact Finset.le_sup
        (f := fun p : Fin n × Fin n => (sp_expression adjE p.1 p.2).untop' 0)
        hmem
    have hle2 : sp_expression adjE i j
        ≤ (sp_expression_max adjE : WithTop ℕ) := by
      rw [← ha] at hle ⊢
      rw [WithTop.untop'_coe] at hle
      exact WithTop.coe_le_coe.mpr hle
    unfold sp_expression_clipped
    rw [if_neg (not_lt.mpr hle2)]

/-- Witness for C2: the pair (0,2) of `adjBlock3` is unreachable in
expression space and its entry is clipped to the maximum finite
distance. -/
theorem claim_C2_witness :
    sp_expression adjBlock3 0 2 = ⊤ ∧
    sp_expression_clipped adjBlock3 0 2
      = (sp_expression_max adjBlock3 : WithTop ℕ) :=
  ⟨by decide, (claim_C2_expression_clipping adjBlock3 0 2).1 (by decide)⟩

/-- C1 counterexample: a single connected node makes the maximum
shortest-path distance 0 (`sp_locations = [[0]]`), yet
`setup_for_OT_reconstruction` does not fail: it returns, and the location
cost entry is NaN (`0/0`), i.e. NaN is produced silently instead of a
reported "degenerate input" condition. -/
theorem claim_C1_counterexample :
    matMax (toFVmat (sp_locations (adjFull 1))) = FV.fin 0 ∧
    (setup_for_OT_reconstruction (adjFull 1) (adjFull 1)).2 0 0 = FV.nan :=
  ⟨by decide, by decide⟩

/-- C1 (amended): when the maximum of the location shortest-path matrix
is zero, the function does not fail; normalization divides `0` by `0` and
every entry of the returned location cost matrix is NaN. -/
theorem claim_C1_amended {n m : ℕ} (adjE : Fin n → Fin n → Bool)
    (adjL : Fin m → Fin m → Bool)
    (hmx : matMax (toFVmat (sp_locations adjL)) = FV.fin 0) (i j : Fin m) :
    (setup_for_OT_reconstruction adjE adjL).2 i j = FV.nan :=
  center_normalize_all_nan (toFVmat (sp_locations adjL))
    (toFVmat_ne_ninf _) (fun i j _ h => toFVmat_fin_nonneg _ i j h) hmx i j

/-- Witness for the amended C1 at the single-node location space. -/
theorem claim_C1_witness :
    matMax (toFVmat (sp_locations (adjSelf 1))) = FV.fin 0 ∧
    (setup_for_OT_reconstruction (adjSelf 1) (adjSelf 1)).2 0 0 = FV.nan :=
  ⟨by decide, claim_C1_amended (adjSelf 1) (adjSelf 1) (by decide) 0 0⟩

/-- C3 (amended): both cost matrices are symmetric and the underlying
shortest-path matrices (including the clipped expression one) have zero
diagonal, for every input; the global mean of a returned cost matrix is
exactly zero whenever the matrix normalized by its maximum is entrywise
finite with positive maximum — i.e. unless the input is degenerate
(zero maximum) or the location graph is disconnected (infinite entries,
which make the mean NaN, see the counterexample). -/
theorem claim_C3_amended {n m : ℕ} (adjE : Fin n → Fin n → Bool)
    (adjL : Fin m → Fin m → Bool) :
    (∀ i j, cost_expression adjE i j = cost_expression adjE j i) ∧
    (∀ i j, cost_locations adjL i j = cost_locations adjL j i) ∧
    (∀ i, sp_expression adjE i i = 0) ∧
    (∀ i, sp_expression_clipped adjE i i = 0) ∧
    (∀ i, sp_locations adjL i i = 0) ∧
    (∀ mxE, matMax (toFVmat (sp_expression_clipped adjE)) = FV.fin mxE →
      0 < mxE → matMean (cost_expression adjE) = FV.fin 0) ∧
    (∀ mxL, matMax (toFVmat (sp_locations adjL)) = FV.fin mxL →
      0 < mxL → matMean (cost_locations adjL) = FV.fin 0) := by
  refine ⟨cost_expression_symm adjE, cost_locations_symm adjL,
    floydWarshall_diag adjE, sp_expression_clipped_diag adjE,
    floydWarshall_diag adjL, ?_, ?_⟩
  · intro mxE h hp
    exact (center_normalize_spec _ mxE (toFVmat_ne_ninf _) h hp).2
  · intro mxL h hp
    exact (center_normalize_spec _ mxL (toFVmat_ne_ninf _) h hp).2

/-- C3 counterexample: with two samples and `k_target = 1`
(`include_self=True` makes each node its own single neighbor, a valid
input with `N = 2 ≥ k+1`), the location graph is disconnected; the
returned location cost matrix is all NaN and its mean is NaN, not zero. -/
theorem claim_C3_counterexample :
    matMean (cost_locations (adjSelf 2)) = FV.nan ∧ FV.nan ≠ FV.fin 0 :=
  ⟨by decide, by decide⟩

/-- Witness for the amended C3 on the complete 2-node graphs. -/
theorem claim_C3_witness :
    matMax (toFVmat (sp_expression_clipped (adjFull 2))) = FV.fin 1 ∧
    matMax (toFVmat (sp_locations (adjFull 2))) = FV.fin 1 ∧
    matMean (cost_expression (adjFull 2)) = FV.fin 0 ∧
    matMean (cost_locations (adjFull 2)) = FV.fin 0 :=
  ⟨by decide, by decide,
    (claim_C3_amended (adjFull 2) (adjFull 2)).2.2.2.2.2.1 1
      (by decide) (by decide),
    (claim_C3_amended (adjFull 2) (adjFull 2)).2.2.2.2.2.2 1
      (by decide) (by decide)⟩

/-- C10 counterexample: with `num_neighbors_source = 1`
(`include_self=True`), the expression graph on two rows has only
self-loops; all finite shortest-path distances are 0, so after clipping
the matrix is all zeros, normalization is `0/0`, and the returned
`cost_expression` entries are NaN — not finite. -/
theorem claim_C10_counterexample :
    cost_expression (adjSelf 2) 0 0 = FV.nan ∧
    ∀ q : ℚ, cost_expression (adjSelf 2) 0 0 ≠ FV.fin q := by
  have h : cost_expression (adjSelf 2) 0 0 = FV.nan := by decide
  exact ⟨h, fun q hq => FV.noConfusion (h ▸ hq)⟩

/-- C10 (amended): every entry of the returned `cost_expression` is
finite whenever the clipped expression shortest-path matrix has a
positive (finite) maximum — in particular for disconnected expression
graphs with at least one edge between distinct nodes; the clipping
removes every infinity, and only the degenerate all-zero case (NaN
entries) escapes finiteness. -/
theorem claim_C10_amended {n m : ℕ} (adjE : Fin n → Fin n → Bool)
    (adjL : Fin m → Fin m → Bool) (mx : ℚ)
    (hmx : matMax (toFVmat (sp_expression_clipped adjE)) = FV.fin mx)
    (hpos : 0 < mx) (i j : Fin n) :
    ∃ q, (setup_for_OT_reconstruction adjE adjL).1 i j = FV.fin q :=
  (center_normalize_spec _ mx (toFVmat_ne_ninf _) hmx hpos).1 i j

/-- Witness for the amended C10: the disconnected two-component graph
`adjBlock3` still yields a finite expression cost entry at the
unreachable pair (0,2). -/
theorem claim_C10_witness :
    matMax (toFVmat (sp_expression_clipped adjBlock3)) = FV.fin 1 ∧
    ∃ q, (setup_for_OT_reconstruction adjBlock3 (adjFull 2)).1 0 2
      = FV.fin q :=
  ⟨by decide,
    claim_C10_amended adjBlock3 (adjFull 2) 1 (by decide) (by decide) 0 2⟩

/-! ## Archetypes and gene selection

`find_spatial_archetypes`, `get_genes_from_spatial_archetype` and
`find_spatially_related_genes` (lines 49-104).  Gene expression rows are
finite data, modelled as `Fin S → ℚ`; computed archetype rows can contain
NaN (mean of an empty slice) and are float rows `FRow S`.  The scipy
clustering (`hierarchy.ward` + `fcluster`) is external: its 1-based
assignment is an input.  `scipy.stats.pearsonr` is external: it is
modelled by the `Pearson` oracle below, with the concrete instance
`pearson2` (exact for rows of two samples) used on concrete inputs. -/

/-- A row of `S` float values. -/
abbrev FRow (S : ℕ) := Fin S → FV

/-- Embed a data row into float values. -/
def toFRow {S : ℕ} (r : Fin S → ℚ) : FRow S := fun j => FV.fin (r j)

/-- `v` is a finite float. -/
def FV.isFin : FV → Bool
  | FV.fin _ => true
  | _ => false

/-- Zero-variance row: all entries equal. -/
def rowConst {S : ℕ} (x : FRow S) : Prop := ∀ j j', x j = x j'

instance {S : ℕ} (x : FRow S) : Decidable (rowConst x) := by
  unfold rowConst
  infer_instance

/-- Contract of the external `scipy.stats.pearsonr` collaborator (spec
section 6): it returns a correlation coefficient and a two-sided p-value;
the coefficient is NaN for zero-variance input and otherwise lies in
[-1, 1] (scipy clips it), and the self-correlation of a finite
non-constant row is 1.  Both facts are mathematical properties of the
Pearson coefficient. -/
structure Pearson (S : ℕ) where
  r : FRow S → FRow S → FV
  p : FRow S → FRow S → FV
  r_bound : ∀ x y q, r x y = FV.fin q → -1 ≤ q ∧ q ≤ 1
  r_self : ∀ x, (∀ j, FV.isFin (x j) = true) → ¬ rowConst x → r x x = FV.fin 1

/-- Exact Pearson coefficient for rows of two samples: for finite
non-constant `x`, `y` it is the sign of `(x0-x1)*(y0-y1)`, i.e. `1` iff
the rows move in the same direction, `-1` otherwise; NaN for constant or
non-finite input. -/
def p2r (x y : FRow 2) : FV :=
  match x 0, x 1, y 0, y 1 with
  | FV.fin a, FV.fin b, FV.fin c, FV.fin d =>
      if a = b then FV.nan
      else if c = d then FV.nan
      else if decide (a < b) = decide (c < d) then FV.fin 1 else FV.fin (-1)
  | _, _, _, _ => FV.nan

/-- p-value companion of `p2r`: scipy documents the two-sample p-value as
`1.0` whenever the coefficient is defined; NaN otherwise. -/
def p2p (x y : FRow 2) : FV :=
  match p2r x y with
  | FV.fin _ => FV.fin 1
  | _ => FV.nan

/-- `np.where(cond)[0]` over a 1-D array. -/
def npWhere (cond : FV → Bool) (l : List FV) : List ℕ :=
  (List.range l.length).filter (fun i => cond (l.getD i FV.nan))

/-- numpy boolean-mask indexing `arr[mask]` (numpy requires the mask and
the array to have equal length; callers reach this only in that case). -/
def boolMask {β : Type} (mask : List Bool) (l : List β) : List β :=
  ((mask.zip l).filter (fun pq => pq.1)).map (fun pq => pq.2)

/-- Element-wise mean of the selected gene rows
(`np.mean(sdge[np.where(clusters == x)[0], :], axis=0)`); the mean of an
empty selection is a row of NaN (numpy's mean-of-empty-slice warning). -/
def meanRows {S : ℕ} (rs : List (Fin S → ℚ)) : FRow S :=
  if rs.isEmpty then fun _ => FV.nan
  else fun j => FV.fin ((rs.map (fun r => r j)).sum / rs.length)

/-- The gene rows whose cluster id equals `c`
(`sdge[np.where(clusters == x)[0], :]`). -/
def membersOf {S : ℕ} (clusters : List ℕ) (sdge : List (Fin S → ℚ))
    (c : ℕ) : List (Fin S → ℚ) :=
  ((clusters.zip sdge).filter (fun pq => pq.1 == c)).map (fun pq => pq.2)

/-- Run a fallible computation over a list of indices; `none` models an
uncaught Python exception inside the loop. -/
def optSeq {β : Type} (f : ℕ → Option β) : List ℕ → Option (List β)
  | [] => some []
  | g :: gs =>
      match f g, optSeq f gs with
      | some v, some vs => some (v :: vs)
      | _, _ => none

/-- `find_spatial_archetypes` (lines 49-66) after the external
`hierarchy.ward`/`fcluster` call, whose 1-based assignment `clusters` is
the input: `archetypes[x-1]` is the mean of the rows assigned to id `x`
for `x` in `1..num_clusters`; the per-gene loop appends
`pearsonr(sdge[gene], archetypes[clusters[gene]-1])[0]`.  The function
performs no validation of `num_clusters`; `none` models an uncaught
IndexError in the loop (`clusters[gene]` or `archetypes[clusters[gene]-1]`
out of range; ids are ≥ 1 under the fcluster contract, so the Python
negative-index wrap for id 0 is not modelled).
`archList` is the `archetypes` array:
`np.array([arch_comp(xi) for xi in range(1, num_clusters+1)])`, row `x-1`
being the mean of the gene rows assigned to cluster id `x`. -/
def archList {S : ℕ} (num_clusters : ℕ) (clusters : List ℕ)
    (sdge : List (Fin S → ℚ)) : List (FRow S) :=
  (List.range' 1 num_clusters).map
    (fun x => meanRows (membersOf clusters sdge x))

def find_spatial_archetypes {S : ℕ} (num_clusters : ℕ)
    (sdge : List (Fin S → ℚ)) (clusters : List ℕ) (P : Pearson S) :
    Option (List (FRow S) × List ℕ × List FV) :=
  match optSeq (fun g =>
      (clusters[g]?).bind (fun c =>
        ((archList num_clusters clusters sdge)[c - 1]?).map (fun a =>
          P.r (toFRow (sdge.getD g (fun _ => 0))) a)))
      (List.range sdge.length) with
  | some corrs => some (archList num_clusters clusters sdge, clusters, corrs)
  | none => none

/-- `get_genes_from_spatial_archetype` (lines 69-87).  `none` models an
uncaught exception (archetype index out of range, or a gene-name sequence
whose length differs from the gene count, which numpy boolean indexing
rejects); `some none` is the Python `None` result ("no significant
genes"), `some (some gs)` the returned gene names. -/
def get_genes_from_spatial_archetype {S : ℕ} {α : Type} [Inhabited α]
    (P : Pearson S) (sdge : List (Fin S → ℚ)) (gene_names : List α)
    (archetypes : List (FRow S)) (archetype : ℕ) (pval_threshold : ℚ) :
    Option (Option (List α)) :=
  if archetype < archetypes.length ∧ gene_names.length = sdge.length then
    let arow := archetypes.getD archetype (fun _ => FV.nan)
    let all_corrs := sdge.map (fun g => P.r (toFRow g) arow)
    let all_corrs_p := sdge.map (fun g => P.p (toFRow g) arow)
    let mask := all_corrs.map (fun c => FV.lt (FV.fin 0) c)
    let indices := npWhere (fun v => FV.le v (FV.fin pval_threshold))
      (boolMask mask all_corrs_p)
    if indices.isEmpty then some none
    else some (some (indices.map
      (fun i => (boolMask mask gene_names).getD i default)))
  else none

/-- Scan loop of `np.argmax` (finite entries: strictly greater values
update the running best, so the first maximum wins). -/
def npArgmaxAux : List FV → ℕ → ℕ → FV → ℕ
  | [], _, bi, _ => bi
  | v :: vs, i, bi, bv =>
      if FV.lt bv v then npArgmaxAux vs (i + 1) i v
      else npArgmaxAux vs (i + 1) bi bv

/-- `np.argmax`: first index attaining the maximum (NaN-free entries; the
claims using it carry that hypothesis). -/
def npArgmax : List FV → ℕ
  | [] => 0
  | v :: vs => npArgmaxAux vs 1 0 v

/-- `find_spatially_related_genes` (lines 90-104): correlate the query
gene's row with every archetype; if the best correlation is below the
float literal `0.7` return `None`, else delegate to
`get_genes_from_spatial_archetype` at the argmax archetype with the same
threshold.  `none` models the uncaught errors (query index out of range;
`np.max` of an empty archetype list). -/
def find_spatially_related_genes {S : ℕ} {α : Type} [Inhabited α]
    (P : Pearson S) (sdge : List (Fin S → ℚ)) (gene_names : List α)
    (archetypes : List (FRow S)) (gene : ℕ) (pval_threshold : ℚ) :
    Option (Option (List α)) :=
  if gene < sdge.length ∧ archetypes ≠ [] then
    let grow := toFRow (sdge.getD gene (fun _ => 0))
    let arch_corrs := archetypes.map (fun a => P.r grow a)
    if FV.lt (fvMax arch_corrs) (FV.fin (7 / 10)) then some none
    else get_genes_from_spatial_archetype P sdge gene_names archetypes
      (npArgmax arch_corrs) pval_threshold
  else none

/-- The three possible outcomes of the two-sample coefficient. -/
theorem p2r_cases (x y : FRow 2) :
    p2r x y = FV.nan ∨ p2r x y = FV.fin 1 ∨ p2r x y = FV.fin (-1) := by
  unfold p2r
  split
  · split_ifs <;> simp
  · exact Or.inl rfl

theorem isFin_iff (v : FV) : FV.isFin v = true ↔ ∃ q, v = FV.fin q := by
  cases v <;> simp [FV.isFin]

/-- The concrete two-sample Pearson collaborator. -/
def pearson2 : Pearson 2 where
  r := p2r
  p := p2p
  r_bound := by
    intro x y q h
    rcases p2r_cases x y with hc | hc | hc <;> rw [hc] at h
    · exact FV.noConfusion h
    · cases h
      constructor <;> norm_num
    · cases h
      constructor <;> norm_num
  r_self := by
    intro x hfin hconst
    obtain ⟨a, ha⟩ := (isFin_iff (x 0)).mp (hfin 0)
    obtain ⟨b, hb⟩ := (isFin_iff (x 1)).mp (hfin 1)
    have hab : a ≠ b := by
      intro hab
      apply hconst
      intro j j'
      fin_cases j <;> fin_cases j' <;> simp [ha, hb, hab]
    unfold p2r
    rw [ha, hb]
    simp [hab]

theorem optSeq_eq_map {β : Type} (f : ℕ → Option β) (h' : ℕ → β) :
    ∀ l : List ℕ, (∀ g ∈ l, f g = some (h' g)) →
      optSeq f l = some (l.map h') := by
  intro l
  induction l with
  | nil => intro _; rfl
  | cons g gs ih =>
      intro h
      have h1 := h g (List.mem_cons_self _ _)
      have h2 := ih (fun a ha => h a (List.mem_cons_of_mem _ ha))
      simp [optSeq, h1, h2]

theorem getD_eq_of_mem_getElem {β : Type} {l : List β} {i : ℕ} {d : β}
    (h : i < l.length) : l.getD i d = l[i] := by
  simp [List.getD_eq_getElem?_getD, List.getElem?_eq_getElem h]

/-- Full characterization of the embedded `find_spatial_archetypes` when
the assignment satisfies the fcluster contract (one id per gene, ids in
`[1, num_clusters]`): the function returns normally with the archetype
rows, the unchanged assignment, and the per-gene correlation to the
gene's own archetype. -/
theorem find_spatial_archetypes_eq {S : ℕ} (num_clusters : ℕ)
    (sdge : List (Fin S → ℚ)) (clusters : List ℕ) (P : Pearson S)
    (hlen : clusters.length = sdge.length)
    (hids : ∀ c ∈ clusters, 1 ≤ c ∧ c ≤ num_clusters) :
    find_spatial_archetypes num_clusters sdge clusters P
      = some (archList num_clusters clusters sdge,
          clusters,
          (List.range sdge.length).map (fun g =>
            P.r (toFRow (sdge.getD g (fun _ => 0)))
              ((archList num_clusters clusters sdge).getD
                (clusters.getD g 0 - 1) (fun _ => FV.nan)))) := by
  unfold find_spatial_archetypes
  rw [optSeq_eq_map _
    (fun g => P.r (toFRow (sdge.getD g (fun _ => 0)))
      ((archList num_clusters clusters sdge).getD
        (clusters.getD g 0 - 1) (fun _ => FV.nan)))]
  · intro g hg
    rw [List.mem_range] at hg
    have hglt : g < clusters.length := hlen ▸ hg
    have hcmem : clusters.getD g 0 ∈ clusters := by
      rw [getD_eq_of_mem_getElem hglt]
      exact List.getElem_mem hglt
    have hc1 : 1 ≤ clusters.getD g 0 := (hids _ hcmem).1
    have hck : clusters.getD g 0 ≤ num_clusters := (hids _ hcmem).2
    have hA1 : clusters.getD g 0 - 1
        < (archList num_clusters clusters sdge).length := by
      rw [archList, List.length_map, List.length_range']
      omega
    rw [List.getElem?_eq_getElem hglt, getD_eq_of_mem_getElem hglt]
    rw [getD_eq_of_mem_getElem hglt] at hA1
    simp [List.getElem?_eq_getElem hA1, getD_eq_of_mem_getElem hA1]

theorem getD_map_range {β : Type} (f : ℕ → β) (n g : ℕ) (d : β)
    (h : g < n) : ((List.range n).map f).getD g d = f g := by
  have h1 : g < ((List.range n).map f).length := by
    rw [List.length_map, List.length_range]
    exact h
  rw [getD_eq_of_mem_getElem h1, List.getElem_map, List.getElem_range]

theorem archList_getD {S : ℕ} (k : ℕ) (clusters : List ℕ)
    (sdge : List (Fin S → ℚ)) (x : ℕ) (h : x < k) (d : FRow S) :
    (archList k clusters sdge).getD x d
      = meanRows (membersOf clusters sdge (x + 1)) := by
  have h1 : x < (archList k clusters sdge).length := by
    rw [archList, List.length_map, List.length_range']
    exact h
  rw [getD_eq_of_mem_getElem h1]
  unfold archList
  rw [List.getElem_map, List.getElem_range']
  have hx : 1 + 1 * x = x + 1 := by omega
  rw [hx]

/-- No pair of the zipped assignment matches an id absent from it. -/
theorem filter_zip_eq_nil {β : Type} :
    ∀ (cl : List ℕ) (rows : List β) (c : ℕ), c ∉ cl →
      (cl.zip rows).filter (fun pq => pq.1 == c) = [] := by
  intro cl
  induction cl with
  | nil => intro rows c _; simp
  | cons x xs ih =>
      intro rows c hc
      cases rows with
      | nil => simp
      | cons r rs =>
          rw [List.zip_cons_cons, List.filter_cons]
          have hx : (x == c) = false := by
            rw [beq_eq_false_iff_ne]
            exact fun h => hc (h ▸ List.mem_cons_self _ _)
          rw [hx]
          simp only [Bool.false_eq_true, if_false]
          exact ih rs c (fun h => hc (List.mem_cons_of_mem _ h))

/-- With a duplicate-free assignment (the fcluster outcome when
`num_clusters = G` on generic data), the member set of gene `g`'s own
cluster id is the singleton of gene `g`'s row. -/
theorem membersOf_singleton {S : ℕ} :
    ∀ (cl : List ℕ) (rows : List (Fin S → ℚ)), cl.Nodup →
      cl.length = rows.length → ∀ g, g < cl.length →
      membersOf cl rows (cl.getD g 0) = [rows.getD g (fun _ => 0)] := by
  intro cl
  induction cl with
  | nil =>
      intro rows _ _ g hg
      exact absurd hg (by simp)
  | cons x xs ih =>
      intro rows hnd hlen g hg
      cases rows with
      | nil => cases hlen
      | cons r rs =>
          rcases Nat.eq_zero_or_pos g with rfl | hgpos
          · unfold membersOf
            rw [List.getD_cons_zero, List.zip_cons_cons, List.filter_cons]
            have hx : (x == x) = true := beq_self_eq_true x
            rw [hx]
            simp only [if_true]
            have hnin : x ∉ xs := (List.nodup_cons.mp hnd).1
            rw [filter_zip_eq_nil xs rs x hnin]
            simp
          · obtain ⟨g', rfl⟩ :=
              Nat.exists_eq_succ_of_ne_zero (Nat.pos_iff_ne_zero.mp hgpos)
            have hg' : g' < xs.length := by
              simpa using hg
            unfold membersOf
            rw [List.getD_cons_succ, List.zip_cons_cons, List.filter_cons]
            have hcmem : xs.getD g' 0 ∈ xs := by
              rw [getD_eq_of_mem_getElem hg']
              exact List.getElem_mem hg'
            have hx : (x == xs.getD g' 0) = false := by
              rw [beq_eq_false_iff_ne]
              intro he
              exact (List.nodup_cons.mp hnd).1 (he ▸ hcmem)
            rw [hx]
            simp only [Bool.false_eq_true, if_false]
            have hrec := ih rs (List.nodup_cons.mp hnd).2
              (by simpa using hlen) g' hg'
            unfold membersOf at hrec
            rw [List.getD_cons_succ]
            exact hrec

/-! ## Claims about `find_spatial_archetypes` -/

/-- Concrete inputs: two genes over two samples, the first gene row
constant (zero variance).  `[1, 2]` is the fcluster assignment for Ward
clustering of two distinct rows cut at `maxclust` `t ≥ 2`. -/
def r0c4 : Fin 2 → ℚ := fun _ => 1

def r1c4 : Fin 2 → ℚ := fun j => if j.val = 0 then 0 else 1

def sdgeC4 : List (Fin 2 → ℚ) := [r0c4, r1c4]

/-- C4 counterexample: on `sdgeC4` with the valid cluster count 2, the
gene-correlations entry of the constant gene row 0 is NaN — not a value
in [-1, 1]. -/
theorem claim_C4_counterexample :
    (find_spatial_archetypes 2 sdgeC4 [1, 2] pearson2).map
      (fun out => out.2.2.getD 0 FV.nan) = some FV.nan := by decide

/-- C4 (amended): under the fcluster contract (assignment of length G
with ids in [1, num_clusters]) the function returns the archetype matrix
(one row per id, row `x` the mean of the rows assigned to id `x+1`,
column count S by construction), the unchanged 1-based assignment, and a
length-G correlation vector whose entry `g` is the Pearson correlation
of gene `g` with its own cluster's archetype row; every finite
correlation lies in [-1, 1], but zero-variance rows yield NaN (see the
counterexample). -/
theorem claim_C4_amended {S : ℕ} (num_clusters : ℕ)
    (sdge : List (Fin S → ℚ)) (clusters : List ℕ) (P : Pearson S)
    (hlen : clusters.length = sdge.length)
    (hids : ∀ c ∈ clusters, 1 ≤ c ∧ c ≤ num_clusters) :
    ∃ corrs,
      find_spatial_archetypes num_clusters sdge clusters P
        = some (archList num_clusters clusters sdge, clusters, corrs) ∧
      (archList num_clusters clusters sdge).length = num_clusters ∧
      (∀ x, x < num_clusters →
        (archList num_clusters clusters sdge).getD x (fun _ => FV.nan)
          = meanRows (membersOf clusters sdge (x + 1))) ∧
      corrs.length = sdge.length ∧
      (∀ g, g < sdge.length →
        corrs.getD g FV.nan
          = P.r (toFRow (sdge.getD g (fun _ => 0)))
              ((archList num_clusters clusters sdge).getD
                (clusters.getD g 0 - 1) (fun _ => FV.nan))) ∧
      (∀ v ∈ corrs, ∀ q, v = FV.fin q → -1 ≤ q ∧ q ≤ 1) := by
  refine ⟨_, find_spatial_archetypes_eq num_clusters sdge clusters P hlen hids,
    ?_, ?_, ?_, ?_, ?_⟩
  · rw [archList, List.length_map, List.length_range']
  · intro x hx
    exact archList_getD num_clusters clusters sdge x hx _
  · rw [List.length_map, List.length_range]
  · intro g hg
    exact getD_map_range _ _ _ _ hg
  · intro v hv q hq
    rcases List.mem_map.mp hv with ⟨g, _, rfl⟩
    exact P.r_bound _ _ q hq

/-- Witness for the amended C4 at the concrete two-gene input. -/
theorem claim_C4_witness :
    ∃ corrs, find_spatial_archetypes 2 sdgeC4 [1, 2] pearson2
      = some (archList 2 [1, 2] sdgeC4, [1, 2], corrs) ∧ corrs.length = 2 := by
  obtain ⟨corrs, h1, _, _, h4, _⟩ :=
    claim_C4_amended 2 sdgeC4 [1, 2] pearson2 (by decide) (by decide)
  exact ⟨corrs, h1, by simpa using h4⟩

/-- C7 counterexample: with `num_clusters = 3 > G = 2` (and `[1, 2]` the
assignment fcluster produces for `t = 3` on two observations) the
function does not fail with an invalid-cluster-count condition: it
returns normally, and the archetype row of the empty cluster id 3 is NaN
(mean of an empty slice). -/
theorem claim_C7_counterexample :
    (find_spatial_archetypes 3 sdgeC4 [1, 2] pearson2).isSome = true ∧
    (find_spatial_archetypes 3 sdgeC4 [1, 2] pearson2).map
      (fun out => out.1.getD 2 (fun _ => FV.fin 0) 0) = some FV.nan :=
  ⟨by decide, by decide⟩

/-- C7 (amended): `find_spatial_archetypes` performs no cluster-count
validation: for every assignment satisfying the fcluster contract
(ids in [1, num_clusters], one per gene) the function returns normally —
in particular for `num_clusters > G`, where it silently produces NaN
archetype rows for the memberless ids instead of failing. -/
theorem claim_C7_amended {S : ℕ} (num_clusters : ℕ)
    (sdge : List (Fin S → ℚ)) (clusters : List ℕ) (P : Pearson S)
    (hlen : clusters.length = sdge.length)
    (hids : ∀ c ∈ clusters, 1 ≤ c ∧ c ≤ num_clusters) :
    (find_spatial_archetypes num_clusters sdge clusters P).isSome = true := by
  rw [find_spatial_archetypes_eq num_clusters sdge clusters P hlen hids]
  rfl

/-- Witness for the amended C7 with a cluster count above the gene
count. -/
theorem claim_C7_witness :
    (find_spatial_archetypes 3 sdgeC4 [1, 2] pearson2).isSome = true :=
  claim_C7_amended 3 sdgeC4 [1, 2] pearson2 (by decide) (by decide)

/-- C8 counterexample: with `num_clusters = G = 2` and singleton clusters
on `sdgeC4`, the correlation of gene 0 is not 1 — its row is constant, so
the Pearson coefficient is NaN. -/
theorem claim_C8_counterexample :
    (find_spatial_archetypes 2 sdgeC4 [1, 2] pearson2).map
      (fun out => out.2.2.getD 0 FV.nan) ≠ some (FV.fin 1) := by decide

/-- C8 (amended): when `num_clusters = G` and the assignment is a
bijection onto `[1, G]` (the fcluster outcome at `maxclust = G` for
pairwise-distinct rows), every gene forms its own singleton cluster, its
archetype row equals its own row, and its correlation with that row is 1
for every gene whose row is non-constant (NaN for a constant row, see
the counterexample). -/
theorem claim_C8_amended {S : ℕ} (sdge : List (Fin S → ℚ))
    (clusters : List ℕ) (P : Pearson S)
    (hlen : clusters.length = sdge.length) (hnodup : clusters.Nodup)
    (hids : ∀ c ∈ clusters, 1 ≤ c ∧ c ≤ sdge.length)
    (g : ℕ) (hg : g < sdge.length) :
    membersOf clusters sdge (clusters.getD g 0)
      = [sdge.getD g (fun _ => 0)] ∧
    (find_spatial_archetypes sdge.length sdge clusters P).map
      (fun out => out.1.getD (clusters.getD g 0 - 1) (fun _ => FV.nan))
      = some (toFRow (sdge.getD g (fun _ => 0))) ∧
    (¬ rowConst (toFRow (sdge.getD g (fun _ => 0))) →
      (find_spatial_archetypes sdge.length sdge clusters P).map
        (fun out => out.2.2.getD g FV.nan) = some (FV.fin 1)) := by
  have hglt : g < clusters.length := hlen ▸ hg
  have hsing := membersOf_singleton clusters sdge hnodup hlen g hglt
  have hcmem : clusters.getD g 0 ∈ clusters := by
    rw [getD_eq_of_mem_getElem hglt]
    exact List.getElem_mem hglt
  have hc1 : 1 ≤ clusters.getD g 0 := (hids _ hcmem).1
  have hck : clusters.getD g 0 ≤ sdge.length := (hids _ hcmem).2
  have harch : (archList sdge.length clusters sdge).getD
      (clusters.getD g 0 - 1) (fun _ => FV.nan)
      = toFRow (sdge.getD g (fun _ => 0)) := by
    rw [archList_getD _ _ _ _ (by omega)]
    have he : clusters.getD g 0 - 1 + 1 = clusters.getD g 0 := by omega
    rw [he, hsing]
    funext j
    simp [meanRows, toFRow]
  refine ⟨hsing, ?_, ?_⟩
  · rw [find_spatial_archetypes_eq sdge.length sdge clusters P hlen hids]
    rw [Option.map_some']
    rw [harch]
  · intro hnc
    rw [find_spatial_archetypes_eq sdge.length sdge clusters P hlen hids]
    rw [Option.map_some']
    rw [getD_map_range _ _ _ _ hg, harch,
      P.r_self (toFRow (sdge.getD g (fun _ => 0))) (fun j => rfl) hnc]

/-- Second concrete input for C8: two non-constant rows. -/
def r2c8 : Fin 2 → ℚ := fun j => if j.val = 0 then 1 else 0

def sdgeC8 : List (Fin 2 → ℚ) := [r1c4, r2c8]

/-- Witness for the amended C8: with two non-constant rows and singleton
clusters, gene 0's correlation with its own archetype is 1. -/
theorem claim_C8_witness :
    (find_spatial_archetypes 2 sdgeC8 [1, 2] pearson2).map
      (fun out => out.2.2.getD 0 FV.nan) = some (FV.fin 1) :=
  (claim_C8_amended sdgeC8 [1, 2] pearson2 (by decide) (by decide)
    (by decide) 0 (by decide)).2.2 (by decide)

/-! ## Claims about `get_genes_from_spatial_archetype` -/

theorem boolMask_map_map {β γ : Type} (l : List β) (f : β → Bool)
    (h : β → γ) : boolMask (l.map f) (l.map h) = (l.filter f).map h := by
  induction l with
  | nil => rfl
  | cons x xs ih =>
      unfold boolMask at ih ⊢
      rw [List.map_cons, List.map_cons, List.zip_cons_cons,
        List.filter_cons, List.filter_cons]
      cases hfx : f x
      · simp only [Bool.false_eq_true, if_false]
        exact ih
      · simp only [if_true, List.map_cons]
        rw [ih]

theorem boolMask_map_zip {β γ : Type} :
    ∀ (l : List β) (ns : List γ) (f : β → Bool), ns.length = l.length →
      boolMask (l.map f) ns
        = ((ns.zip l).filter (fun pg => f pg.2)).map (fun pg => pg.1) := by
  intro l
  induction l with
  | nil =>
      intro ns f h
      rw [List.length_nil, List.length_eq_zero] at h
      subst h
      rfl
  | cons x xs ih =>
      intro ns f h
      cases ns with
      | nil => cases h
      | cons nm ns' =>
          unfold boolMask at ih ⊢
          rw [List.map_cons, List.zip_cons_cons, List.filter_cons,
            List.zip_cons_cons, List.filter_cons]
          cases hfx : f x
          · simp only [Bool.false_eq_true, if_false]
            exact ih ns' f (by simpa using h)
          · simp only [if_true, List.map_cons]
            rw [ih ns' f (by simpa using h)]

theorem map_snd_filter_zip {β γ : Type} :
    ∀ (ns : List γ) (l : List β) (f : β → Bool), ns.length = l.length →
      ((ns.zip l).filter (fun pg => f pg.2)).map (fun pg => pg.2)
        = l.filter f := by
  intro ns
  induction ns with
  | nil =>
      intro l f h
      rw [List.length_nil] at h
      have h2 : l = [] := List.length_eq_zero.mp h.symm
      subst h2
      rfl
  | cons nm ns' ih =>
      intro l f h
      cases l with
      | nil => cases h
      | cons x xs =>
          rw [List.zip_cons_cons, List.filter_cons, List.filter_cons]
          cases hfx : f x
          · simp only [Bool.false_eq_true, if_false]
            exact ih xs f (by simpa using h)
          · simp only [if_true, List.map_cons]
            rw [ih xs f (by simpa using h)]

theorem filter_map_succ (p : ℕ → Bool) :
    ∀ l : List ℕ, (l.map Nat.succ).filter p
      = (l.filter (fun i => p (i + 1))).map Nat.succ := by
  intro l
  induction l with
  | nil => rfl
  | cons i l' ih =>
      rw [List.map_cons, List.filter_cons, List.filter_cons]
      cases hp : p (i + 1)
      · simp only [Nat.succ_eq_add_one, hp, Bool.false_eq_true, if_false]
        exact ih
      · simp only [Nat.succ_eq_add_one, hp, if_true, List.map_cons]
        rw [ih]

/-- The index selection `arr2[np.where(cond(arr1))[0]]` over two
equal-length arrays equals filtering the zipped pairs on the condition
and projecting. -/
theorem npWhere_select {γ : Type} [Inhabited γ] :
    ∀ (bs : List FV) (as : List γ) (cond : FV → Bool),
      as.length = bs.length →
      (npWhere cond bs).map (fun i => as.getD i default)
        = ((as.zip bs).filter (fun ab => cond ab.2)).map (fun ab => ab.1) := by
  intro bs
  induction bs with
  | nil =>
      intro as cond h
      rw [List.length_nil, List.length_eq_zero] at h
      subst h
      rfl
  | cons b bs' ih =>
      intro as cond h
      cases as with
      | nil => cases h
      | cons a as' =>
          unfold npWhere
          rw [List.length_cons, List.range_succ_eq_map, List.filter_cons,
        filter_map_succ, List.zip_cons_cons, List.filter_cons]
          simp only [List.getD_cons_zero, List.getD_cons_succ]
          have hih := ih as' cond (by simpa using h)
          unfold npWhere at hih
          cases hc : cond b
          · simp only [Bool.false_eq_true, if_false, List.map_map]
            rw [← hih]
            rfl
          · simp only [if_true, List.map_cons, List.getD_cons_zero,
              List.map_map]
            rw [← hih]
            rfl

theorem map_filter_ext {β γ : Type} (l : List β) (f g : β → γ)
    (p q : β → Bool) (hf : ∀ a, f a = g a) (hp : ∀ a, p a = q a) :
    (l.filter p).map f = (l.filter q).map g := by
  induction l with
  | nil => rfl
  | cons a l' ih =>
      rw [List.filter_cons, List.filter_cons, hp a]
      cases hq : q a
      · simp only [Bool.false_eq_true, if_false]
        exact ih
      · simp only [if_true, List.map_cons]
        rw [hf a, ih]

/-- Selection rule of the spec: the gene names whose correlation with the
archetype row is strictly positive and whose p-value is at most the
threshold, in input order. -/
def selectedGenes {S : ℕ} {α : Type} (P : Pearson S)
    (sdge : List (Fin S → ℚ)) (gene_names : List α) (arow : FRow S)
    (pval_threshold : ℚ) : List α :=
  ((gene_names.zip sdge).filter (fun pg =>
      FV.lt (FV.fin 0) (P.r (toFRow pg.2) arow)
        && FV.le (P.p (toFRow pg.2) arow) (FV.fin pval_threshold))).map
    (fun pg => pg.1)

/-- The double boolean-mask indexing of the source computes exactly the
two-condition selection: `gene_names[all_corrs > 0][indices]` with
`indices = np.where(all_corrs_p[all_corrs > 0] <= pval_threshold)[0]`
returns the names with positive correlation and passing p-value, in
order; the `None` branch is taken exactly when that selection is empty. -/
theorem get_genes_eq {S : ℕ} {α : Type} [Inhabited α] (P : Pearson S)
    (sdge : List (Fin S → ℚ)) (gene_names : List α)
    (archetypes : List (FRow S)) (archetype : ℕ) (thr : ℚ)
    (hai : archetype < archetypes.length)
    (hlen : gene_names.length = sdge.length) :
    get_genes_from_spatial_archetype P sdge gene_names archetypes
        archetype thr
      = some (if (selectedGenes P sdge gene_names
            (archetypes.getD archetype (fun _ => FV.nan)) thr).isEmpty
          then none
          else some (selectedGenes P sdge gene_names
            (archetypes.getD archetype (fun _ => FV.nan)) thr)) := by
  unfold get_genes_from_spatial_archetype
  rw [if_pos (And.intro hai hlen)]
  simp only []
  set A := archetypes.getD archetype (fun _ => FV.nan) with hA
  have hmask : (sdge.map (fun g => P.r (toFRow g) A)).map
        (fun c => FV.lt (FV.fin 0) c)
      = sdge.map (fun g => FV.lt (FV.fin 0) (P.r (toFRow g) A)) := by
    rw [List.map_map]
    rfl
  rw [hmask,
    boolMask_map_map sdge (fun g => FV.lt (FV.fin 0) (P.r (toFRow g) A))
      (fun g => P.p (toFRow g) A),
    boolMask_map_zip sdge gene_names
      (fun g => FV.lt (FV.fin 0) (P.r (toFRow g) A)) hlen]
  have hzlen : (((gene_names.zip sdge).filter
        (fun pg => FV.lt (FV.fin 0) (P.r (toFRow pg.2) A))).map
          (fun pg => pg.1)).length
      = ((sdge.filter (fun g => FV.lt (FV.fin 0) (P.r (toFRow g) A))).map
          (fun g => P.p (toFRow g) A)).length := by
    rw [List.length_map, List.length_map,
      ← map_snd_filter_zip gene_names sdge
        (fun g => FV.lt (FV.fin 0) (P.r (toFRow g) A)) hlen,
      List.length_map]
  have hsel := npWhere_select
    ((sdge.filter (fun g => FV.lt (FV.fin 0) (P.r (toFRow g) A))).map
      (fun g => P.p (toFRow g) A))
    (((gene_names.zip sdge).filter
        (fun pg => FV.lt (FV.fin 0) (P.r (toFRow pg.2) A))).map
      (fun pg => pg.1))
    (fun v => FV.le v (FV.fin thr)) hzlen
  rw [hsel]
  have hlist : List.map (fun ab : α × FV => ab.1)
      (List.filter (fun ab : α × FV => FV.le ab.2 (FV.fin thr))
        ((List.map (fun pg : α × (Fin S → ℚ) => pg.1)
            (List.filter
              (fun pg : α × (Fin S → ℚ) =>
                FV.lt (FV.fin 0) (P.r (toFRow pg.2) A))
              (gene_names.zip sdge))).zip
          (List.map (fun g => P.p (toFRow g) A)
            (List.filter (fun g => FV.lt (FV.fin 0) (P.r (toFRow g) A))
              sdge))))
      = selectedGenes P sdge gene_names A thr := by
    rw [← map_snd_filter_zip gene_names sdge
        (fun g => FV.lt (FV.fin 0) (P.r (toFRow g) A)) hlen,
      List.map_map, List.zip_map', List.filter_map, List.map_map,
      List.filter_filter]
    unfold selectedGenes
    exact map_filter_ext _ _ _ _ _ (fun a => rfl)
      (fun a => by simp [Function.comp, Bool.and_comm])
  rw [hlist]
  have hcomb := hsel.trans hlist
  have hempty : (npWhere (fun v => FV.le v (FV.fin thr))
        ((sdge.filter (fun g => FV.lt (FV.fin 0) (P.r (toFRow g) A))).map
          (fun g => P.p (toFRow g) A))).isEmpty
      = (selectedGenes P sdge gene_names A thr).isEmpty := by
    rw [← hcomb]
    cases npWhere (fun v => FV.le v (FV.fin thr))
      ((sdge.filter (fun g => FV.lt (FV.fin 0) (P.r (toFRow g) A))).map
        (fun g => P.p (toFRow g) A)) <;> rfl
  rw [hempty]
  cases he : (selectedGenes P sdge gene_names A thr).isEmpty <;> simp

/-- C5: `get_genes_from_spatial_archetype` returns exactly the names of
genes whose correlation with the selected archetype row is strictly
positive and whose p-value is at most `pval_threshold`; it returns the
Python `None` (a normal outcome, with a printed message as its only other
effect) precisely when that selection is empty. -/
theorem claim_C5_selection {S : ℕ} {α : Type} [Inhabited α] (P : Pearson S)
    (sdge : List (Fin S → ℚ)) (gene_names : List α)
    (archetypes : List (FRow S)) (archetype : ℕ) (thr : ℚ)
    (hai : archetype < archetypes.length)
    (hlen : gene_names.length = sdge.length) :
    (get_genes_from_spatial_archetype P sdge gene_names archetypes
          archetype thr = some none
      ↔ selectedGenes P sdge gene_names
          (archetypes.getD archetype (fun _ => FV.nan)) thr = []) ∧
    (∀ l, get_genes_from_spatial_archetype P sdge gene_names archetypes
          archetype thr = some (some l)
      → l = selectedGenes P sdge gene_names
          (archetypes.getD archetype (fun _ => FV.nan)) thr) ∧
    (selectedGenes P sdge gene_names
          (archetypes.getD archetype (fun _ => FV.nan)) thr ≠ []
      → get_genes_from_spatial_archetype P sdge gene_names archetypes
          archetype thr
        = some (some (selectedGenes P sdge gene_names
            (archetypes.getD archetype (fun _ => FV.nan)) thr))) := by
  rw [get_genes_eq P sdge gene_names archetypes archetype thr hai hlen]
  cases he : (selectedGenes P sdge gene_names
      (archetypes.getD archetype (fun _ => FV.nan)) thr).isEmpty
  · rw [if_neg Bool.false_ne_true]
    refine ⟨⟨fun h => ?_, fun h => ?_⟩, fun l hl => ?_, fun _ => rfl⟩
    · exact Option.noConfusion (Option.some.inj h)
    · rw [h] at he
      cases he
    · exact (Option.some.inj (Option.some.inj hl)).symm
  · rw [if_pos rfl]
    have hnil : selectedGenes P sdge gene_names
        (archetypes.getD archetype (fun _ => FV.nan)) thr = [] :=
      List.isEmpty_iff.mp he
    refine ⟨⟨fun _ => hnil, fun _ => rfl⟩, fun l hl => ?_,
      fun hne => absurd hnil hne⟩
    exact Option.noConfusion (Option.some.inj hl)

/-- C9: when the function returns a list, the names appear in the same
relative order as in the input name sequence, and the list is
non-empty. -/
theorem claim_C9_order {S : ℕ} {α : Type} [Inhabited α] (P : Pearson S)
    (sdge : List (Fin S → ℚ)) (gene_names : List α)
    (archetypes : List (FRow S)) (archetype : ℕ) (thr : ℚ)
    (hai : archetype < archetypes.length)
    (hlen : gene_names.length = sdge.length) (l : List α)
    (h : get_genes_from_spatial_archetype P sdge gene_names archetypes
      archetype thr = some (some l)) :
    l.Sublist gene_names ∧ l ≠ [] := by
  rw [get_genes_eq P sdge gene_names archetypes archetype thr hai hlen] at h
  cases he : (selectedGenes P sdge gene_names
      (archetypes.getD archetype (fun _ => FV.nan)) thr).isEmpty
  · rw [he, if_neg Bool.false_ne_true] at h
    have hl : l = selectedGenes P sdge gene_names
        (archetypes.getD archetype (fun _ => FV.nan)) thr :=
      (Option.some.inj (Option.some.inj h)).symm
    subst hl
    constructor
    · have h2 : ((gene_names.zip sdge).filter (fun pg =>
          FV.lt (FV.fin 0)
              (P.r (toFRow pg.2) (archetypes.getD archetype (fun _ => FV.nan)))
            && FV.le (P.p (toFRow pg.2)
                (archetypes.getD archetype (fun _ => FV.nan)))
              (FV.fin thr))).Sublist (gene_names.zip sdge) :=
        List.filter_sublist _
      have h3 := h2.map (fun pg : α × (Fin S → ℚ) => pg.1)
      have h4 : List.map (fun pg : α × (Fin S → ℚ) => pg.1)
          (gene_names.zip sdge) = gene_names := by
        have h5 := List.map_fst_zip gene_names sdge (le_of_eq hlen)
        exact h5
      rw [h4] at h3
      exact h3
    · intro h0
      rw [h0] at he
      cases he
  · rw [he, if_pos rfl] at h
    exact Option.noConfusion (Option.some.inj h)

/-- Concrete input for the selection claims: three genes over two
samples, names `0, 1, 2`, one archetype row `(0, 1)`; genes 0 and 2
correlate positively with it, gene 1 negatively. -/
def gw5c : Fin 2 → ℚ := fun j => if j.val = 0 then 2 else 3

def sdgeW5 : List (Fin 2 → ℚ) := [r1c4, r2c8, gw5c]

def arowW5 : FRow 2 := toFRow r1c4

/-- Witness for C5: at p-value threshold 1 (the two-sample p-value is 1)
the function returns exactly the positively-correlated genes 0 and 2. -/
theorem claim_C5_witness :
    get_genes_from_spatial_archetype pearson2 sdgeW5 ([0, 1, 2] : List ℕ)
      [arowW5] 0 1 = some (some [0, 2]) := by
  have h := (claim_C5_selection pearson2 sdgeW5 ([0, 1, 2] : List ℕ)
    [arowW5] 0 1 (by decide) (by decide)).2.2 (by decide)
  rw [h]
  decide

/-- Witness for C9 on the same concrete input: the returned list `[0, 2]`
is a non-empty sublist of the input names `[0, 1, 2]`. -/
theorem claim_C9_witness :
    ([0, 2] : List ℕ).Sublist [0, 1, 2] ∧ ([0, 2] : List ℕ) ≠ [] :=
  claim_C9_order pearson2 sdgeW5 ([0, 1, 2] : List ℕ) [arowW5] 0 1
    (by decide) (by decide) [0, 2] (by decide)

/-! ## Claims about `find_spatially_related_genes` -/

/-- Rational mirror of the `np.argmax` scan. -/
def qArgmaxAux : List ℚ → ℕ → ℕ → ℚ → ℕ
  | [], _, bi, _ => bi
  | v :: vs, i, bi, bv =>
      if bv < v then qArgmaxAux vs (i + 1) i v
      else qArgmaxAux vs (i + 1) bi bv

theorem npArgmaxAux_map_fin :
    ∀ (xs : List ℚ) (i bi : ℕ) (bv : ℚ),
      npArgmaxAux (xs.map FV.fin) i bi (FV.fin bv) = qArgmaxAux xs i bi bv := by
  intro xs
  induction xs with
  | nil => intro i bi bv; rfl
  | cons v vs ih =>
      intro i bi bv
      rw [List.map_cons]
      unfold npArgmaxAux qArgmaxAux
      by_cases h : bv < v <;> simp [FV.lt, h, ih]

/-- Outcome of the argmax scan: either the running best wins (all
remaining entries are at most its value), or the scan lands on the first
entry that strictly exceeds the running best and every other entry. -/
theorem qArgmaxAux_spec :
    ∀ (xs : List ℚ) (i bi : ℕ) (bv : ℚ),
      (qArgmaxAux xs i bi bv = bi ∧ ∀ y ∈ xs, y ≤ bv) ∨
      (∃ m, m < xs.length ∧ qArgmaxAux xs i bi bv = i + m ∧
        bv < xs.getD m 0 ∧ (∀ y ∈ xs, y ≤ xs.getD m 0) ∧
        (∀ j, j < m → xs.getD j 0 < xs.getD m 0)) := by
  intro xs
  induction xs with
  | nil => intro i bi bv; exact Or.inl ⟨rfl, by simp⟩
  | cons v vs ih =>
      intro i bi bv
      unfold qArgmaxAux
      by_cases h : bv < v
      · rw [if_pos h]
        rcases ih (i + 1) i v with ⟨h1, h2⟩ | ⟨m, hm, h1, h2, h3, h4⟩
        · refine Or.inr ⟨0, by simp, ?_, ?_, ?_, ?_⟩
          · rw [h1]
            omega
          · simpa using h
          · intro y hy
            rw [List.getD_cons_zero]
            rcases List.mem_cons.mp hy with rfl | hy'
            · exact le_refl y
            · exact h2 y hy'
          · intro j hj
            omega
        · refine Or.inr ⟨m + 1, by simpa using hm, ?_, ?_, ?_, ?_⟩
          · rw [h1]
            omega
          · rw [List.getD_cons_succ]
            exact lt_trans h h2
          · intro y hy
            rw [List.getD_cons_succ]
            rcases List.mem_cons.mp hy with rfl | hy'
            · exact le_of_lt h2
            · exact h3 y hy'
          · intro j hj
            cases j with
            | zero =>
                rw [List.getD_cons_zero, List.getD_cons_succ]
                exact h2
            | succ j' =>
                rw [List.getD_cons_succ, List.getD_cons_succ]
                exact h4 j' (by omega)
      · rw [if_neg h]
        rcases ih (i + 1) bi bv with ⟨h1, h2⟩ | ⟨m, hm, h1, h2, h3, h4⟩
        · refine Or.inl ⟨h1, ?_⟩
          intro y hy
          rcases List.mem_cons.mp hy with rfl | hy'
          · exact le_of_not_lt h
          · exact h2 y hy'
        · refine Or.inr ⟨m + 1, by simpa using hm, ?_, ?_, ?_, ?_⟩
          · rw [h1]
            omega
          · rw [List.getD_cons_succ]
            exact h2
          · intro y hy
            rw [List.getD_cons_succ]
            rcases List.mem_cons.mp hy with rfl | hy'
            · exact le_trans (le_of_not_lt h) (le_of_lt h2)
            · exact h3 y hy'
          · intro j hj
            cases j with
            | zero =>
                rw [List.getD_cons_zero, List.getD_cons_succ]
                exact lt_of_le_of_lt (le_of_not_lt h) h2
            | succ j' =>
                rw [List.getD_cons_succ, List.getD_cons_succ]
                exact h4 j' (by omega)

theorem fv_max2_fin (a b : ℚ) :
    FV.max2 (FV.fin a) (FV.fin b) = FV.fin (max a b) := by
  by_cases h : a < b
  · simp [FV.max2, FV.lt, h, max_eq_right (le_of_lt h)]
  · simp [FV.max2, FV.lt, h, max_eq_left (le_of_not_lt h)]

theorem foldl_max2_fin_map :
    ∀ (xs : List ℚ) (a : ℚ),
      (xs.map FV.fin).foldl FV.max2 (FV.fin a) = FV.fin (xs.foldl max a) := by
  intro xs
  induction xs with
  | nil => intro a; rfl
  | cons v vs ih =>
      intro a
      rw [List.map_cons, List.foldl_cons, List.foldl_cons, fv_max2_fin]
      exact ih (max a v)

/-- `np.max` over an all-finite non-empty array is the rational
maximum. -/
theorem fvMax_cons_map (x : ℚ) (xs : List ℚ) :
    fvMax ((x :: xs).map FV.fin) = FV.fin (xs.foldl max x) := by
  unfold fvMax
  rw [List.map_cons, List.foldl_cons,
    show FV.max2 FV.ninf (FV.fin x) = FV.fin x from rfl]
  exact foldl_max2_fin_map xs x

theorem le_foldl_max :
    ∀ (xs : List ℚ) (x : ℚ), ∀ y ∈ x :: xs, y ≤ xs.foldl max x := by
  intro xs
  induction xs with
  | nil =>
      intro x y hy
      rcases List.mem_cons.mp hy with rfl | h
      · exact le_refl y
      · exact absurd h (List.not_mem_nil y)
  | cons v vs ih =>
      intro x y hy
      rw [List.foldl_cons]
      rcases List.mem_cons.mp hy with rfl | hy'
      · exact le_trans (le_max_left y v)
          (ih (max y v) _ (List.mem_cons_self _ _))
      · rcases List.mem_cons.mp hy' with rfl | hy''
        · exact le_trans (le_max_right x y)
            (ih (max x y) _ (List.mem_cons_self _ _))
        · exact ih (max x v) y (List.mem_cons_of_mem _ hy'')

theorem foldl_max_le :
    ∀ (xs : List ℚ) (x M : ℚ), x ≤ M → (∀ y ∈ xs, y ≤ M) →
      xs.foldl max x ≤ M := by
  intro xs
  induction xs with
  | nil => intro x M hx _; exact hx
  | cons v vs ih =>
      intro x M hx hall
      rw [List.foldl_cons]
      exact ih (max x v) M
        (max_le hx (hall v (List.mem_cons_self _ _)))
        (fun y hy => hall y (List.mem_cons_of_mem _ hy))

/-- `np.argmax` on an all-finite non-empty array: a valid index, it
attains `np.max`, and every earlier entry is strictly below it — ties
resolve to the first occurrence. -/
theorem npArgmax_fin_spec (x : ℚ) (xs : List ℚ) :
    npArgmax ((x :: xs).map FV.fin) < (x :: xs).length ∧
    ((x :: xs).map FV.fin).getD (npArgmax ((x :: xs).map FV.fin)) FV.nan
      = fvMax ((x :: xs).map FV.fin) ∧
    ∀ j, j < npArgmax ((x :: xs).map FV.fin) →
      FV.lt (((x :: xs).map FV.fin).getD j FV.nan)
        (fvMax ((x :: xs).map FV.fin)) = true := by
  rw [fvMax_cons_map]
  have hnp : npArgmax ((x :: xs).map FV.fin) = qArgmaxAux xs 1 0 x := by
    rw [List.map_cons]
    unfold npArgmax
    exact npArgmaxAux_map_fin xs 1 0 x
  rw [hnp]
  have hgetD : ∀ k, k < (x :: xs).length →
      ((x :: xs).map FV.fin).getD k FV.nan = FV.fin ((x :: xs).getD k 0) := by
    intro k hk
    have hk' : k < ((x :: xs).map FV.fin).length := by simpa using hk
    rw [getD_eq_of_mem_getElem hk', List.getElem_map,
      getD_eq_of_mem_getElem hk]
  rcases qArgmaxAux_spec xs 1 0 x with ⟨h1, h2⟩ | ⟨m, hm, h1, h2, h3, h4⟩
  · have hfold : xs.foldl max x = x :=
      le_antisymm (foldl_max_le xs x x (le_refl x) h2)
        (le_foldl_max xs x x (List.mem_cons_self x xs))
    rw [h1]
    refine ⟨by simp, ?_, ?_⟩
    · rw [hgetD 0 (by simp), List.getD_cons_zero, hfold]
    · intro j hj
      omega
  · have he : (x :: xs).getD (1 + m) 0 = xs.getD m 0 := by
      have hadd : 1 + m = m + 1 := by omega
      rw [hadd, List.getD_cons_succ]
    have hfold : xs.foldl max x = xs.getD m 0 := by
      apply le_antisymm
      · exact foldl_max_le xs x _ (le_of_lt h2) h3
      · have hmem : xs.getD m 0 ∈ xs := by
          rw [getD_eq_of_mem_getElem hm]
          exact List.getElem_mem hm
        exact le_foldl_max xs x _ (List.mem_cons_of_mem _ hmem)
    rw [h1]
    have hlen : 1 + m < (x :: xs).length := by
      rw [List.length_cons]
      omega
    refine ⟨hlen, ?_, ?_⟩
    · rw [hgetD (1 + m) hlen, he, hfold]
    · intro j hj
      have hjlen : j < (x :: xs).length := by
        rw [List.length_cons]
        omega
      rw [hgetD j hjlen, hfold]
      have hlt : (x :: xs).getD j 0 < xs.getD m 0 := by
        cases j with
        | zero =>
            rw [List.getD_cons_zero]
            exact h2
        | succ j' =>
            rw [List.getD_cons_succ]
            exact h4 j' (by omega)
      rw [show FV.lt (FV.fin ((x :: xs).getD j 0)) (FV.fin (xs.getD m 0))
          = decide ((x :: xs).getD j 0 < xs.getD m 0) from rfl]
      exact decide_eq_true hlt

theorem list_all_fin :
    ∀ l : List FV, (∀ v ∈ l, ∃ q, v = FV.fin q) →
      ∃ qs : List ℚ, l = qs.map FV.fin := by
  intro l
  induction l with
  | nil => intro _; exact ⟨[], rfl⟩
  | cons v vs ih =>
      intro h
      obtain ⟨q, hq⟩ := h v (List.mem_cons_self _ _)
      obtain ⟨qs, hqs⟩ := ih (fun w hw => h w (List.mem_cons_of_mem _ hw))
      exact ⟨q :: qs, by rw [List.map_cons, ← hq, ← hqs]⟩

/-- C6: `find_spatially_related_genes` correlates the query gene's row
with every archetype; when every correlation is finite (no NaN, the
claim's implicit domain) and the best one is below the `0.7` threshold it
returns the Python `None`, otherwise it delegates to
`get_genes_from_spatial_archetype` with the same threshold at the argmax
archetype, which is a valid index attaining the maximum with every
earlier correlation strictly smaller (ties break to the first
occurrence). -/
theorem claim_C6_query {S : ℕ} {α : Type} [Inhabited α] (P : Pearson S)
    (sdge : List (Fin S → ℚ)) (gene_names : List α)
    (archetypes : List (FRow S)) (gene : ℕ) (thr : ℚ)
    (hg : gene < sdge.length) (ha : archetypes ≠ [])
    (hfin : ∀ v ∈ archetypes.map
        (fun a => P.r (toFRow (sdge.getD gene (fun _ => 0))) a),
      ∃ q, v = FV.fin q)
    (q : ℚ)
    (hq : fvMax (archetypes.map
        (fun a => P.r (toFRow (sdge.getD gene (fun _ => 0))) a))
      = FV.fin q) :
    (q < 7 / 10 →
      find_spatially_related_genes P sdge gene_names archetypes gene thr
        = some none) ∧
    (¬ q < 7 / 10 →
      find_spatially_related_genes P sdge gene_names archetypes gene thr
        = get_genes_from_spatial_archetype P sdge gene_names archetypes
            (npArgmax (archetypes.map
              (fun a => P.r (toFRow (sdge.getD gene (fun _ => 0))) a))) thr ∧
      npArgmax (archetypes.map
          (fun a => P.r (toFRow (sdge.getD gene (fun _ => 0))) a))
        < archetypes.length ∧
      (archetypes.map
          (fun a => P.r (toFRow (sdge.getD gene (fun _ => 0))) a)).getD
        (npArgmax (archetypes.map
          (fun a => P.r (toFRow (sdge.getD gene (fun _ => 0))) a))) FV.nan
        = FV.fin q ∧
      (∀ j, j < npArgmax (archetypes.map
          (fun a => P.r (toFRow (sdge.getD gene (fun _ => 0))) a)) →
        FV.lt ((archetypes.map
            (fun a => P.r (toFRow (sdge.getD gene (fun _ => 0))) a)).getD
          j FV.nan) (FV.fin q) = true)) := by
  obtain ⟨qs, hqs⟩ := list_all_fin _ hfin
  constructor
  · intro hlt
    unfold find_spatially_related_genes
    rw [if_pos (And.intro hg ha)]
    simp only []
    rw [hq, if_pos (by
      rw [show FV.lt (FV.fin q) (FV.fin (7 / 10))
          = decide (q < 7 / 10) from rfl]
      exact decide_eq_true hlt)]
  · intro hge
    have hbranch : find_spatially_related_genes P sdge gene_names
        archetypes gene thr
        = get_genes_from_spatial_archetype P sdge gene_names archetypes
            (npArgmax (archetypes.map
              (fun a => P.r (toFRow (sdge.getD gene (fun _ => 0))) a)))
            thr := by
      unfold find_spatially_related_genes
      rw [if_pos (And.intro hg ha)]
      simp only []
      rw [hq, if_neg (by
        rw [show FV.lt (FV.fin q) (FV.fin (7 / 10))
            = decide (q < 7 / 10) from rfl]
        exact fun hc => hge (of_decide_eq_true hc))]
    cases qs with
    | nil =>
        exfalso
        rw [List.map_nil] at hqs
        exact ha (List.map_eq_nil_iff.mp hqs)
    | cons q0 qs' =>
        have hspec := npArgmax_fin_spec q0 qs'
        rw [← hqs] at hspec
        rw [hq] at hspec
        have hlencs : (q0 :: qs').length = archetypes.length := by
          have h5 : (archetypes.map
              (fun a => P.r (toFRow (sdge.getD gene (fun _ => 0))) a)).length
              = archetypes.length := List.length_map _ _
          rw [hqs, List.length_map] at h5
          exact h5
        exact ⟨hbranch, hlencs ▸ hspec.1, hspec.2.1, hspec.2.2⟩

/-- Witness for C6: with archetypes `(1,0)` and `(0,1)` and query gene 0
(row `(0,1)`), the correlations are `[-1, 1]`; the best is `1 ≥ 0.7`, so
the call delegates to the argmax archetype (index 1, the first — and
only — maximum). -/
theorem claim_C6_witness :
    find_spatially_related_genes pearson2 sdgeW5 ([0, 1, 2] : List ℕ)
        [toFRow r2c8, toFRow r1c4] 0 1
      = get_genes_from_spatial_archetype pearson2 sdgeW5 [0, 1, 2]
          [toFRow r2c8, toFRow r1c4]
          (npArgmax ([toFRow r2c8, toFRow r1c4].map
            (fun a => pearson2.r (toFRow (sdgeW5.getD 0 (fun _ => 0))) a)))
          1 ∧
    npArgmax ([toFRow r2c8, toFRow r1c4].map
        (fun a => pearson2.r (toFRow (sdgeW5.getD 0 (fun _ => 0))) a))
      < 2 := by
  have hfin : ∀ v ∈ [toFRow r2c8, toFRow r1c4].map
      (fun a => pearson2.r (toFRow (sdgeW5.getD 0 (fun _ => 0))) a),
      ∃ q, v = FV.fin q := by
    intro v hv
    rw [show ([toFRow r2c8, toFRow r1c4].map
        (fun a => pearson2.r (toFRow (sdgeW5.getD 0 (fun _ => 0))) a))
        = [FV.fin (-1), FV.fin 1] from by decide] at hv
    rcases List.mem_cons.mp hv with rfl | hv'
    · exact ⟨-1, rfl⟩
    · rcases List.mem_cons.mp hv' with rfl | hv''
      · exact ⟨1, rfl⟩
      · exact absurd hv'' (List.not_mem_nil v)
  have h := claim_C6_query pearson2 sdgeW5 ([0, 1, 2] : List ℕ)
    [toFRow r2c8, toFRow r1c4] 0 1 (by decide) (List.cons_ne_nil _ _)
    hfin 1 (by decide)
  have h2 := h.2 (by norm_num)
  exact ⟨h2.1, h2.2.1⟩
